import Mathlib

/-!
Verification of the `pflow` module (Pauli-flow driver) of the fastflow
repository.  The definitions below are a shallow embedding of
`src/pflow.rs`; vertex sets are `Finset ℕ`, ordered sets (`OrderedNodes`,
a `BTreeSet` in the source) are `Finset ℕ` enumerated in ascending order,
hash maps `usize → Nodes` are association lists, and the `Vec<usize>`
layer is a `List ℕ`.  Panics (`expect` / `unwrap`) are modelled with
`Except String`.  Components of the crate that are referenced by
`pflow.rs` but live in modules outside `src/` (`common`, `gf2_linalg`)
are modelled from the specification and are marked as such in their doc
comments.
-/

deriving instance DecidableEq for Except

namespace pflow

/-- Measurement planes, from `enum PPlane` in `src/pflow.rs` (tags 0..=5). -/
inductive PPlane where
  | XY
  | YZ
  | ZX
  | X
  | Y
  | Z
deriving DecidableEq, Repr

/-- `PPlane::from_u8` (derived `FromPrimitive` on `#[repr(u8)]` values 0..=5). -/
def PPlane.from_u8 : ℕ → Option PPlane
  | 0 => some .XY
  | 1 => some .YZ
  | 2 => some .ZX
  | 3 => some .X
  | 4 => some .Y
  | 5 => some .Z
  | _ => none

/-- `type BranchKind = u8` and its three constants. -/
abbrev BranchKind := ℕ

def BRANCH_XY : BranchKind := 0

def BRANCH_YZ : BranchKind := 1

def BRANCH_ZX : BranchKind := 2

/-- The graph: vertex `v`'s neighborhood is the `v`-th entry
(`Graph = Vec<HashSet<usize>>` in the crate's `common` module). -/
abbrev Graph := List (Finset ℕ)

/-- Neighborhood lookup `g[v]`. -/
def nbr (g : Graph) (v : ℕ) : Finset ℕ := g.getD v ∅

/-- The ascending enumeration of a vertex set (`BTreeSet` and the
`matching_nodes!` results iterate in ascending order). -/
def sortedList (s : Finset ℕ) : List ℕ :=
  (List.range (s.sup id + 1)).filter (fun x => decide (x ∈ s))

theorem mem_sortedList (s : Finset ℕ) (x : ℕ) : x ∈ sortedList s ↔ x ∈ s := by
  unfold sortedList
  rw [List.mem_filter, List.mem_range, Nat.lt_succ_iff]
  constructor
  · intro h
    exact of_decide_eq_true h.2
  · intro h
    exact ⟨Finset.le_sup (f := id) h, decide_eq_true h⟩

theorem sortedList_nodup (s : Finset ℕ) : (sortedList s).Nodup :=
  (List.nodup_range _).filter _

theorem sortedList_toFinset (s : Finset ℕ) : (sortedList s).toFinset = s := by
  ext x
  rw [List.mem_toFinset, mem_sortedList]

/-- Symmetric difference of two bit rows (XOR of bit-vectors). -/
def xorRow (a b : Finset ℕ) : Finset ℕ := (a \ b) ∪ (b \ a)

/-- Toggle one bit of a row (`FixedBitSet::toggle`). -/
def toggleBit (c : ℕ) (a : Finset ℕ) : Finset ℕ :=
  if c ∈ a then a.erase c else insert c a

/-- Modelled from the spec: the pivot search of `gf2_linalg::GF2Solver`
(module `gf2_linalg` is not under `src/`).  "Pick any row with bit j set
whose row index ≥ current pivot row"; we pick the first such row. -/
def findPivot (rows : List (Finset ℕ)) (p j : ℕ) : Option ℕ :=
  (List.range rows.length).find? (fun r => decide (p ≤ r) && decide (j ∈ rows.getD r ∅))

/-- Swap two rows of the working matrix. -/
def swapRows (rows : List (Finset ℕ)) (p r : ℕ) : List (Finset ℕ) :=
  (rows.set p (rows.getD r ∅)).set r (rows.getD p ∅)

/-- Modelled from the spec: the forward-elimination loop of
`gf2_linalg::GF2Solver::solve_in_place` (not under `src/`).  For each
column `j` in order, pick a pivot row, swap it up, and XOR it into every
other row that has bit `j` set; returns the reduced rows together with
the list of (pivot row, pivot column) pairs. -/
def elimAll (rows0 : List (Finset ℕ)) (ncols : ℕ) : List (Finset ℕ) × List (ℕ × ℕ) :=
  (List.range ncols).foldl
    (fun st j =>
      let rows := st.1
      let pivots := st.2
      let p := pivots.length
      match findPivot rows p j with
      | none => st
      | some r =>
        let rows1 := swapRows rows p r
        let prow := rows1.getD p ∅
        let rows2 := (List.range rows1.length).map (fun i =>
          let row := rows1.getD i ∅
          if i ≠ p ∧ j ∈ row then xorRow row prow else row)
        (rows2, pivots ++ [(p, j)]))
    (rows0, [])

/-- Modelled from the spec: feasibility of the reduced system — every
all-zero row on the left must have a zero RHS bit. -/
def feasibleAll (rows : List (Finset ℕ)) (ncols : ℕ) : Bool :=
  rows.all (fun row => !(decide (row.filter (· < ncols) = ∅)) || !(decide (ncols ∈ row)))

/-- Modelled from the spec: back-substitution of
`gf2_linalg::GF2Solver::solve_in_place`.  Walk pivot rows bottom-up; for
pivot column `j` of pivot row `p`, the bit is the RHS bit of row `p`
XORed with the XOR over later pivot columns present in both row `p` and
the partial witness.  Free columns default to 0. -/
def backSub (rows : List (Finset ℕ)) (ncols : ℕ) (pivots : List (ℕ × ℕ)) : Finset ℕ :=
  pivots.reverse.foldl
    (fun x pj =>
      let row := rows.getD pj.1 ∅
      let s := pivots.foldl
        (fun acc qj => if qj.2 > pj.2 ∧ qj.2 ∈ row ∧ qj.2 ∈ x then !acc else acc) false
      let bit := xor (decide (ncols ∈ row)) s
      if bit then insert pj.2 x else x)
    ∅

/-- Modelled from the spec: `gf2_linalg::GF2Solver::solve_in_place` with
one RHS at column `ncols` (module `gf2_linalg` is not under `src/`).
Returns whether the system is solvable and, if so, a witness. -/
def solve_in_place (rows : List (Finset ℕ)) (ncols : ℕ) : Bool × Finset ℕ :=
  let ep := elimAll rows ncols
  if feasibleAll ep.1 ncols then (true, backSub ep.1 ncols ep.2) else (false, ∅)

/-- Modelled from the spec: `common::odd_neighbors` (module `common` is
not under `src/`): `{v : |g[v] ∩ S| is odd}` over the vertex universe. -/
def odd_neighbors (g : Graph) (s : Finset ℕ) : Finset ℕ :=
  (Finset.range g.length).filter (fun v => (nbr g v ∩ s).card % 2 = 1)

/-- The column-index inverse table `colset2i.get(&w)` built in
`init_work_upper_co` / `init_work_lower_co`: the position of `w` in the
enumeration of `colset`, when present. -/
def col2i (csL : List ℕ) (w : ℕ) : Option ℕ :=
  if w ∈ csL then some (csL.indexOf w) else none

/-- One coefficient row: bits at the column indices of the members of
`g[v] ∩ colset` (the inner loop of `init_work_upper_co`). -/
def rowOfNbrs (g : Graph) (v : ℕ) (csL : List ℕ) : Finset ℕ :=
  (sortedList (nbr g v)).foldl
    (fun row w =>
      match col2i csL w with
      | some c => insert c row
      | none => row)
    ∅

/-- `init_work_upper_co` from `src/pflow.rs`: one row per member of
`rowset`, bits at the columns of its neighbors. -/
def init_work_upper_co (g : Graph) (ruL csL : List ℕ) : List (Finset ℕ) :=
  ruL.map (fun v => rowOfNbrs g v csL)

/-- `init_work_lower_co` from `src/pflow.rs`: like the upper block but
with the diagonal element `work[r].insert(r)` always included. -/
def init_work_lower_co (g : Graph) (rlL csL : List ℕ) : List (Finset ℕ) :=
  rlL.enum.map (fun p => insert p.1 (rowOfNbrs g p.2 csL))

/-- `init_work_upper_rhs::<K>` from `src/pflow.rs`: RHS column is
`c = colset.len()`.  For `K ≠ YZ` set the bit of `u`'s row; for
`K ≠ XY` additionally toggle the bit of every row whose vertex is a
neighbor of `u`. -/
def init_work_upper_rhs (K : BranchKind) (u : ℕ) (g : Graph) (ruL csL : List ℕ)
    (rows : List (Finset ℕ)) : List (Finset ℕ) :=
  let c := csL.length
  let rows1 :=
    if K ≠ BRANCH_YZ then
      rows.set (ruL.indexOf u) (insert c (rows.getD (ruL.indexOf u) ∅))
    else rows
  if K = BRANCH_XY then rows1
  else
    (sortedList (nbr g u)).foldl
      (fun rs v =>
        if v ∈ ruL then rs.set (ruL.indexOf v) (toggleBit c (rs.getD (ruL.indexOf v) ∅))
        else rs)
      rows1

/-- `init_work_lower_rhs::<K>` from `src/pflow.rs`: nothing for the XY
branch; otherwise toggle the RHS bit of every row whose vertex is a
neighbor of `u`. -/
def init_work_lower_rhs (K : BranchKind) (u : ℕ) (g : Graph) (rlL csL : List ℕ)
    (rows : List (Finset ℕ)) : List (Finset ℕ) :=
  let c := csL.length
  if K = BRANCH_XY then rows
  else
    (sortedList (nbr g u)).foldl
      (fun rs v =>
        if v ∈ rlL then rs.set (rlL.indexOf v) (toggleBit c (rs.getD (rlL.indexOf v) ∅))
        else rs)
      rows

/-- `init_work::<K>` from `src/pflow.rs`: initialize the upper block on
`work[..nrows_upper]` and the lower block on `work[nrows_upper..]`. -/
def init_work (K : BranchKind) (u : ℕ) (g : Graph) (ruL rlL csL : List ℕ) :
    List (Finset ℕ) :=
  init_work_upper_rhs K u g ruL csL (init_work_upper_co g ruL csL) ++
    init_work_lower_rhs K u g rlL csL (init_work_lower_co g rlL csL)

/-- `decode_solution::<K>` from `src/pflow.rs`: map the witness bits
through `tab` and additionally insert `u` itself when `K ≠ XY`. -/
def decode_solution (K : BranchKind) (u : ℕ) (x : Finset ℕ) (tab : List ℕ) : Finset ℕ :=
  let fu := x.image (fun c => tab.getD c 0)
  if K ≠ BRANCH_XY then insert u fu else fu

/-- `ScopedInclude::new` from `src/pflow.rs`: insert `u` and remember
whether the insertion actually happened. -/
def scopedIncludeNew (s : Finset ℕ) (u : ℕ) : Finset ℕ × Option ℕ :=
  if u ∈ s then (s, none) else (insert u s, some u)

/-- `impl Drop for ScopedInclude`: remove `u` again if it was inserted. -/
def scopedIncludeDrop (s : Finset ℕ) : Option ℕ → Finset ℕ
  | none => s
  | some u => s.erase u

/-- `ScopedExclude::new` from `src/pflow.rs`: remove `u` and remember
whether the removal actually happened. -/
def scopedExcludeNew (s : Finset ℕ) (u : ℕ) : Finset ℕ × Option ℕ :=
  if u ∈ s then (s.erase u, some u) else (s, none)

/-- `impl Drop for ScopedExclude`: insert `u` again if it was removed. -/
def scopedExcludeDrop (s : Finset ℕ) : Option ℕ → Finset ℕ
  | none => s
  | some u => insert u s

/-- One branch attempt of `pflow::find`: build the working matrix for
branch `K` (via `zerofill` and `init_work::<K>`), run the solver, and on
success decode the witness through `tab` (the enumeration of `colset`). -/
def attemptBranch (K : BranchKind) (g : Graph) (u : ℕ) (ru rl cs : Finset ℕ) :
    Option (Finset ℕ) :=
  let ruL := sortedList ru
  let rlL := sortedList rl
  let tab := sortedList cs
  let work := init_work K u g ruL rlL tab
  let sx := solve_in_place work tab.length
  if sx.1 then some (decode_solution K u sx.2 tab) else none

/-- The three sequential branch blocks of `pflow::find` (each guarded by
`!done &&` and a `matches!` on the plane of `u`, in the order XY, YZ,
ZX). -/
def tryBranches (g : Graph) (p : PPlane) (u : ℕ) (ru rl cs : Finset ℕ) :
    Option (Finset ℕ) :=
  let r : Option (Finset ℕ) := none
  let r :=
    if r = none ∧ (p = PPlane.XY ∨ p = PPlane.X ∨ p = PPlane.Y) then
      attemptBranch BRANCH_XY g u ru rl cs
    else r
  let r :=
    if r = none ∧ (p = PPlane.YZ ∨ p = PPlane.Y ∨ p = PPlane.Z) then
      attemptBranch BRANCH_YZ g u ru rl cs
    else r
  let r :=
    if r = none ∧ (p = PPlane.ZX ∨ p = PPlane.Z ∨ p = PPlane.X) then
      attemptBranch BRANCH_ZX g u ru rl cs
    else r
  r

/-- `PFlow = HashMap<usize, Nodes>`, built by successive `insert`s with
distinct keys; modelled as an association list. -/
abbrev PFlow := List (ℕ × Finset ℕ)

/-- The mutable state of `pflow::find`: the frontier sets, this layer's
accepted set `cset`, the correction function `f` and the layer vector. -/
structure FindSt where
  ocset : Finset ℕ
  cset : Finset ℕ
  rowset_upper : Finset ℕ
  rowset_lower : Finset ℕ
  colset : Finset ℕ
  f : PFlow
  layer : List ℕ
deriving DecidableEq

/-- The body of `for &u in &ocset` in `pflow::find`: scoped adjustments
of the frontier sets, the emptiness skip, the three branch attempts, the
recording of `f(u)`, `layer[u]` and `cset` on success, and the restoring
drops of the scoped guards on every path. -/
def processVertex (g : Graph) (pp : ℕ → PPlane) (l : ℕ) (st : FindSt) (u : ℕ) : FindSt :=
  let rut := scopedIncludeNew st.rowset_upper u
  let rlt := scopedExcludeNew st.rowset_lower u
  let cst := scopedExcludeNew st.colset u
  let res : Option (Finset ℕ) :=
    if rut.1.card + rlt.1.card = 0 ∨ cst.1.card = 0 then none
    else tryBranches g (pp u) u rut.1 rlt.1 cst.1
  let ru2 := scopedIncludeDrop rut.1 rut.2
  let rl2 := scopedExcludeDrop rlt.1 rlt.2
  let cs2 := scopedExcludeDrop cst.1 cst.2
  match res with
  | some fu =>
    { st with
      f := (u, fu) :: st.f
      layer := st.layer.set u l
      cset := insert u st.cset
      rowset_upper := ru2
      rowset_lower := rl2
      colset := cs2 }
  | none =>
    { st with rowset_upper := ru2, rowset_lower := rl2, colset := cs2 }

/-- The end-of-layer bookkeeping of `pflow::find`: subtract the accepted
`cset` from `ocset` and both row sets, and add `cset ∖ iset` to
`colset` (`difference_with` / `union_with` from `common`, whose
in-place set semantics is taken from the spec). -/
def book (iset : Finset ℕ) (st : FindSt) : FindSt :=
  { st with
    ocset := st.ocset \ st.cset
    rowset_upper := st.rowset_upper \ st.cset
    rowset_lower := st.rowset_lower \ st.cset
    colset := st.colset ∪ (st.cset \ iset) }

/-- The `l == 0` seeding of `pflow::find`: remove the outputs from both
row sets and add `oset ∖ iset` to `colset`. -/
def seed (iset oset : Finset ℕ) (st : FindSt) : FindSt :=
  { st with
    rowset_upper := st.rowset_upper \ oset
    rowset_lower := st.rowset_lower \ oset
    colset := st.colset ∪ (oset \ iset) }

/-- The layer loop `for l in 0_usize..` of `pflow::find`, parameterized
by the enumeration `ord` of `ocset` used by each layer sweep (the source
iterates a hash set in unspecified order).  `fuel` bounds the number of
iterations; the loop breaks at the first `l > 0` whose sweep accepts
nothing, which happens within `|V| + 2` iterations. -/
def runLayers (g : Graph) (pp : ℕ → PPlane) (iset oset : Finset ℕ)
    (ord : ℕ → Finset ℕ → List ℕ) : ℕ → ℕ → FindSt → FindSt
  | 0, _, st => st
  | fuel + 1, l, st =>
    let st1 := (ord l st.ocset).foldl (processVertex g pp l) { st with cset := ∅ }
    if l = 0 then
      runLayers g pp iset oset ord fuel 1 (book iset (seed iset oset st1))
    else if st1.cset = ∅ then st1
    else runLayers g pp iset oset ord fuel (l + 1) (book iset st1)

/-- The initial state of `pflow::find`: `ocset = V ∖ O`,
`rowset_upper = V ∖ yzset`, `rowset_lower = yset`,
`colset = xyset ∖ I`, with `yset`, `xyset`, `yzset` computed by the
`matching_nodes!` macro over the plane map (`Y`, `X | Y` and `Y | Z`
respectively). -/
def initState (g : Graph) (iset oset pdomv : Finset ℕ) (pp : ℕ → PPlane) : FindSt :=
  let n := g.length
  let vset := Finset.range n
  { ocset := vset \ oset
    cset := ∅
    rowset_upper := vset \ (pdomv.filter (fun v => pp v = PPlane.Y ∨ pp v = PPlane.Z))
    rowset_lower := pdomv.filter (fun v => pp v = PPlane.Y)
    colset := (pdomv.filter (fun v => pp v = PPlane.X ∨ pp v = PPlane.Y)) \ iset
    f := []
    layer := List.replicate n 0 }

/-- The key set of a `PFlow` association list (`f.keys()`). -/
def fdom (f : PFlow) : Finset ℕ := (f.map Prod.fst).toFinset

/-- Modelled from the spec: `common::check_domain` (module `common` is
not under `src/`): `dom(f) = V ∖ O` and every `f(u) ⊆ V ∖ I`. -/
def check_domain (f : PFlow) (vset iset oset : Finset ℕ) : Bool :=
  decide (fdom f = vset \ oset) && f.all (fun p => decide (p.2 ⊆ vset \ iset))

/-- Modelled from the spec: `common::check_initial` (module `common` is
not under `src/`): every output vertex has layer 0. -/
def check_initial (layer : List ℕ) (oset : Finset ℕ) : Bool :=
  decide (∀ v ∈ oset, layer.getD v 0 = 0)

/-- The plane constraint of `check_definition` in `src/pflow.rs` on
`(i ∈ f(i), i ∈ Odd(f(i)))`. -/
def planeCheck (p : PPlane) (a b : Bool) : Bool :=
  match p with
  | .XY => a = false && b = true
  | .YZ => a = true && b = false
  | .ZX => a = true && b = true
  | .X => b
  | .Y => xor a b
  | .Z => a

/-- `check_definition` from `src/pflow.rs`: the post-hoc verification of
a candidate `(f, layer)` (the plane map is modelled by its key set
`pdomv` together with a total lookup `pp`). -/
def check_definition (f : PFlow) (layer : List ℕ) (g : Graph) (pdomv : Finset ℕ)
    (pp : ℕ → PPlane) : Bool :=
  decide (f.length = pdomv.card) &&
    f.all (fun q =>
      let i := q.1
      let fi := q.2
      let odd_fi := odd_neighbors g fi
      (decide (∀ fij ∈ fi, i ≠ fij → layer.getD i 0 ≤ layer.getD fij 0 →
          pp fij = PPlane.X ∨ pp fij = PPlane.Y)) &&
        (decide (∀ j ∈ xorRow fi odd_fi, i ≠ j → layer.getD i 0 ≤ layer.getD j 0 →
          ¬(j ∈ pdomv ∧ pp j = PPlane.Y))) &&
        (decide (∀ j ∈ odd_fi, i ≠ j → layer.getD i 0 ≤ layer.getD j 0 →
          pp j = PPlane.Y ∨ pp j = PPlane.Z)) &&
        planeCheck (pp i) (decide (i ∈ fi)) (decide (i ∈ odd_fi)))

/-- The layer loop of `pflow::find` followed by its exit test and the
three `unwrap`ped post-construction checks, parameterized by the sweep
enumeration `ord`.  `Except.error` models a panic. -/
def findCoreWith (ord : ℕ → Finset ℕ → List ℕ) (g : Graph) (iset oset pdomv : Finset ℕ)
    (pp : ℕ → PPlane) : Except String (Option (PFlow × List ℕ)) :=
  let n := g.length
  let vset := Finset.range n
  let stF := runLayers g pp iset oset ord (n + 2) 0 (initState g iset oset pdomv pp)
  if stF.ocset = ∅ then
    if check_domain stF.f vset iset oset then
      if check_initial stF.layer oset then
        if check_definition stF.f stF.layer g pdomv pp then
          Except.ok (some (stF.f, stF.layer))
        else Except.error "check_definition failed"
      else Except.error "check_initial failed"
    else Except.error "check_domain failed"
  else Except.ok none

/-- The canonical enumeration of a vertex set, in ascending order. -/
def sortOrd : ℕ → Finset ℕ → List ℕ := fun _ s => sortedList s

/-- The initial tag decoding of `pflow::find`:
`PPlane::from_u8(v).expect("pplane is in 0..6")` over all entries; the
first tag outside 0..=5 panics (`none`). -/
def decodePPlanes : List (ℕ × ℕ) → Option (List (ℕ × PPlane))
  | [] => some []
  | q :: rest =>
    match PPlane.from_u8 q.2 with
    | none => none
    | some p => (decodePPlanes rest).map (fun l => (q.1, p) :: l)

/-- `pflow::find` from `src/pflow.rs`.  The plane map arrives as integer
tags; a tag outside 0..=5 panics in the decoding, before the layer loop
runs.  The decoded map is modelled by its key set together with a total
lookup function. -/
def find (g : Graph) (iset oset : Finset ℕ) (pplanes : List (ℕ × ℕ)) :
    Except String (Option (PFlow × List ℕ)) :=
  match decodePPlanes pplanes with
  | none => Except.error "pplane is in 0..6"
  | some pps =>
    findCoreWith sortOrd g iset oset ((pps.map Prod.fst).toFinset)
      (fun u => ((pps.lookup u).getD PPlane.XY))

/-! ### Basic lemmas about the scoped guards -/

theorem scopedIncludeNew_fst (s : Finset ℕ) (u : ℕ) :
    (scopedIncludeNew s u).1 = insert u s := by
  by_cases h : u ∈ s <;> simp [scopedIncludeNew, h, Finset.insert_eq_self.mpr]

theorem scopedIncludeDrop_inv (s : Finset ℕ) (u : ℕ) :
    scopedIncludeDrop (insert u s) (scopedIncludeNew s u).2 = s := by
  by_cases h : u ∈ s <;>
    simp [scopedIncludeNew, scopedIncludeDrop, h, Finset.insert_eq_self.mpr,
      Finset.erase_insert]

theorem scopedExcludeNew_fst (s : Finset ℕ) (u : ℕ) :
    (scopedExcludeNew s u).1 = s.erase u := by
  by_cases h : u ∈ s <;> simp [scopedExcludeNew, h, Finset.erase_eq_self.mpr]

theorem scopedExcludeDrop_inv (s : Finset ℕ) (u : ℕ) :
    scopedExcludeDrop (s.erase u) (scopedExcludeNew s u).2 = s := by
  by_cases h : u ∈ s <;>
    simp [scopedExcludeNew, scopedExcludeDrop, h, Finset.insert_erase,
      Finset.erase_eq_self.mpr]

/-- The per-vertex outcome of the sweep body: the scoped frontier sets,
the emptiness skip and the branch attempts, as a function of the frontier
part of the state only. -/
def vertexResult (g : Graph) (pp : ℕ → PPlane) (st : FindSt) (u : ℕ) : Option (Finset ℕ) :=
  let ru := insert u st.rowset_upper
  let rl := st.rowset_lower.erase u
  let cs := st.colset.erase u
  if ru.card + rl.card = 0 ∨ cs.card = 0 then none
  else tryBranches g (pp u) u ru rl cs

theorem processVertex_eq (g : Graph) (pp : ℕ → PPlane) (l : ℕ) (st : FindSt) (u : ℕ) :
    processVertex g pp l st u =
      match vertexResult g pp st u with
      | some fu =>
        { st with
          f := (u, fu) :: st.f
          layer := st.layer.set u l
          cset := insert u st.cset }
      | none => st := by
  cases st with
  | mk oc cs ru rl co f la =>
    unfold processVertex vertexResult
    simp only [scopedIncludeNew_fst, scopedExcludeNew_fst, scopedIncludeDrop_inv,
      scopedExcludeDrop_inv]

theorem vertexResult_congr (g : Graph) (pp : ℕ → PPlane) (st1 st2 : FindSt) (u : ℕ)
    (h1 : st1.rowset_upper = st2.rowset_upper) (h2 : st1.rowset_lower = st2.rowset_lower)
    (h3 : st1.colset = st2.colset) :
    vertexResult g pp st1 u = vertexResult g pp st2 u := by
  unfold vertexResult
  rw [h1, h2, h3]

theorem processVertex_rowset_upper (g : Graph) (pp : ℕ → PPlane) (l : ℕ) (st : FindSt)
    (u : ℕ) : (processVertex g pp l st u).rowset_upper = st.rowset_upper := by
  rw [processVertex_eq]
  cases vertexResult g pp st u <;> rfl

theorem processVertex_rowset_lower (g : Graph) (pp : ℕ → PPlane) (l : ℕ) (st : FindSt)
    (u : ℕ) : (processVertex g pp l st u).rowset_lower = st.rowset_lower := by
  rw [processVertex_eq]
  cases vertexResult g pp st u <;> rfl

theorem processVertex_colset (g : Graph) (pp : ℕ → PPlane) (l : ℕ) (st : FindSt)
    (u : ℕ) : (processVertex g pp l st u).colset = st.colset := by
  rw [processVertex_eq]
  cases vertexResult g pp st u <;> rfl

theorem processVertex_ocset (g : Graph) (pp : ℕ → PPlane) (l : ℕ) (st : FindSt)
    (u : ℕ) : (processVertex g pp l st u).ocset = st.ocset := by
  rw [processVertex_eq]
  cases vertexResult g pp st u <;> rfl

/-- C6.  For every vertex `u` processed in a layer sweep, whatever the
exit path (accepted, skipped for an empty matrix, or all branches
failing), the frontier sets `rowset_upper`, `rowset_lower` and `colset`
seen by the next vertex equal their state from before `u`'s scoped
adjustments were applied. -/
theorem frontier_restored (g : Graph) (pp : ℕ → PPlane) (l : ℕ) (st : FindSt) (u : ℕ) :
    (processVertex g pp l st u).rowset_upper = st.rowset_upper ∧
      (processVertex g pp l st u).rowset_lower = st.rowset_lower ∧
      (processVertex g pp l st u).colset = st.colset := by
  refine ⟨?_, ?_, ?_⟩
  · rw [processVertex_eq]; cases vertexResult g pp st u <;> rfl
  · rw [processVertex_eq]; cases vertexResult g pp st u <;> rfl
  · rw [processVertex_eq]; cases vertexResult g pp st u <;> rfl

/-- C9.  If, after the scoped adjustments for `u`, the candidate column
set is empty, or both row partitions are empty, then no branch is
attempted for `u` and the state — including `f`, `layer` and `cset` — is
left entirely unchanged by `u`'s iteration. -/
theorem empty_matrix_skips (g : Graph) (pp : ℕ → PPlane) (l : ℕ) (st : FindSt) (u : ℕ)
    (h : st.colset.erase u = ∅ ∨
      (insert u st.rowset_upper = ∅ ∧ st.rowset_lower.erase u = ∅)) :
    processVertex g pp l st u = st := by
  rw [processVertex_eq]
  have hnone : vertexResult g pp st u = none := by
    unfold vertexResult
    rcases h with h | h
    · rw [if_pos (Or.inr (by rw [h]; rfl))]
    · rw [if_pos (Or.inl (by rw [h.1, h.2]; rfl))]
  rw [hnone]

/-- Witness for C9 at a concrete state whose column set would become
empty after excluding the processed vertex. -/
theorem empty_matrix_skips_witness :
    processVertex [{1}, {0}] (fun _ => PPlane.XY) 0
        ⟨{0}, ∅, {1}, ∅, {0}, [], [0, 0]⟩ 0 =
      ⟨{0}, ∅, {1}, ∅, {0}, [], [0, 0]⟩ :=
  empty_matrix_skips [{1}, {0}] (fun _ => PPlane.XY) 0
    ⟨{0}, ∅, {1}, ∅, {0}, [], [0, 0]⟩ 0 (Or.inl (by decide))

/-- The branch list tried for each measurement plane, as the claim
states it: XY-plane tries only XY, YZ only YZ, ZX only ZX, X tries XY
then ZX, Y tries XY then YZ, Z tries YZ then ZX. -/
def branchesFor : PPlane → List BranchKind
  | .XY => [BRANCH_XY]
  | .YZ => [BRANCH_YZ]
  | .ZX => [BRANCH_ZX]
  | .X => [BRANCH_XY, BRANCH_ZX]
  | .Y => [BRANCH_XY, BRANCH_YZ]
  | .Z => [BRANCH_YZ, BRANCH_ZX]

/-- C1.  The three sequential branch blocks try exactly the branches
eligible for `plane(u)`, in the fixed order XY, YZ, ZX, and return the
decoded solution of the first branch whose GF(2) system is solvable
(`List.findSome?` of the attempts); an attempt succeeds exactly when the
solver reports the branch's system solvable. -/
theorem branch_order_spec (g : Graph) (p : PPlane) (u : ℕ) (ru rl cs : Finset ℕ) :
    tryBranches g p u ru rl cs =
        (branchesFor p).findSome? (fun K => attemptBranch K g u ru rl cs) ∧
      ∀ K, (attemptBranch K g u ru rl cs).isSome =
        (solve_in_place
          (init_work K u g (sortedList ru) (sortedList rl) (sortedList cs))
          (sortedList cs).length).1 := by
  constructor
  · cases p <;>
      simp only [tryBranches, branchesFor, List.findSome?] <;>
      cases hxy : attemptBranch BRANCH_XY g u ru rl cs <;>
      cases hyz : attemptBranch BRANCH_YZ g u ru rl cs <;>
      cases hzx : attemptBranch BRANCH_ZX g u ru rl cs <;>
      simp [hxy, hyz, hzx]
  · intro K
    by_cases hs :
        (solve_in_place
          (init_work K u g (sortedList ru) (sortedList rl) (sortedList cs))
          (sortedList cs).length).1 <;>
      simp [attemptBranch, hs]

/-- C4.  Membership in the decoded correction set: `f(u)` consists of
the vertices `tab[c]` for witness bits `c`, together with `u` itself
exactly when the branch is not XY. -/
theorem decode_solution_spec (K : BranchKind) (u : ℕ) (x : Finset ℕ) (tab : List ℕ)
    (v : ℕ) :
    v ∈ decode_solution K u x tab ↔
      (∃ c ∈ x, tab.getD c 0 = v) ∨ (K ≠ BRANCH_XY ∧ v = u) := by
  unfold decode_solution
  by_cases hK : K = BRANCH_XY <;> simp [hK, Finset.mem_image, or_comm]

/-! ### Characterization of the coefficient blocks (C2) -/

theorem mem_foldl_insertCol (csL : List ℕ) (c : ℕ) :
    ∀ (L : List ℕ) (s : Finset ℕ),
      (c ∈ L.foldl
          (fun row w =>
            match col2i csL w with
            | some cw => insert cw row
            | none => row)
          s) ↔
        c ∈ s ∨ ∃ w ∈ L, col2i csL w = some c := by
  intro L
  induction L with
  | nil => simp
  | cons w rest ih =>
    intro s
    cases hw : col2i csL w with
    | none => simp [List.foldl_cons, hw, ih]
    | some cw =>
      simp only [List.foldl_cons, hw, ih, Finset.mem_insert, List.mem_cons]
      constructor
      · rintro (⟨rfl | hs⟩ | ⟨w2, hw2, hc2⟩)
        · exact Or.inr ⟨w, Or.inl rfl, hw⟩
        · exact Or.inl hs
        · exact Or.inr ⟨w2, Or.inr hw2, hc2⟩
      · rintro (hs | ⟨w2, rfl | hw2, hc2⟩)
        · exact Or.inl (Or.inr hs)
        · rw [hw] at hc2
          exact Or.inl (Or.inl (Option.some_injective _ hc2).symm)
        · exact Or.inr ⟨w2, hw2, hc2⟩

theorem mem_rowOfNbrs (g : Graph) (v : ℕ) (csL : List ℕ) (c : ℕ) :
    c ∈ rowOfNbrs g v csL ↔ ∃ w ∈ nbr g v, col2i csL w = some c := by
  unfold rowOfNbrs
  rw [mem_foldl_insertCol]
  simp [mem_sortedList]

theorem getD_lt {α : Type} (l : List α) (d : α) (i : ℕ) (h : i < l.length) :
    l.getD i d = l.get ⟨i, h⟩ := by
  simp [List.getD_eq_getElem?_getD, List.getElem?_eq_getElem h]

theorem col2i_eq_some (csL : List ℕ) (hnd : csL.Nodup) (c : ℕ) (hc : c < csL.length)
    (w : ℕ) : col2i csL w = some c ↔ w = csL.get ⟨c, hc⟩ := by
  unfold col2i
  by_cases hw : w ∈ csL
  · simp only [if_pos hw, Option.some.injEq]
    constructor
    · rintro rfl
      exact (List.indexOf_get (List.indexOf_lt_length.mpr hw)).symm
    · rintro rfl
      simp only [List.get_eq_getElem]
      exact List.indexOf_getElem hnd c hc
  · simp only [if_neg hw]
    constructor
    · rintro ⟨⟩
    · rintro rfl
      refine absurd ?_ hw
      rw [List.get_eq_getElem]
      exact List.getElem_mem hc

/-- C2.  Entries of the two coefficient blocks: in the upper block,
`upper[r][c] = 1` iff the vertex at column `c` is a neighbor of the
vertex at row `r`; in the lower block, `lower[r][c] = 1` iff the vertex
at column `c` is a neighbor of the vertex at row `r` or `c = r` (the
diagonal bit is always set). -/
theorem work_matrix_entries (g : Graph) (ruL rlL csL : List ℕ) (r c : ℕ)
    (hnd : csL.Nodup) (hc : c < csL.length) :
    (r < ruL.length →
      (c ∈ (init_work_upper_co g ruL csL).getD r ∅ ↔
        csL.getD c 0 ∈ nbr g (ruL.getD r 0))) ∧
    (r < rlL.length →
      (c ∈ (init_work_lower_co g rlL csL).getD r ∅ ↔
        (csL.getD c 0 ∈ nbr g (rlL.getD r 0) ∨ c = r))) := by
  have hcs : csL.getD c 0 = csL.get ⟨c, hc⟩ := getD_lt csL 0 c hc
  constructor
  · intro hr
    have hlen : r < (init_work_upper_co g ruL csL).length := by
      simpa [init_work_upper_co] using hr
    rw [getD_lt _ _ _ hlen, hcs, getD_lt ruL 0 r hr]
    simp only [init_work_upper_co, List.get_eq_getElem, List.getElem_map]
    rw [mem_rowOfNbrs]
    constructor
    · rintro ⟨w, hwmem, hw⟩
      rw [col2i_eq_some csL hnd c hc] at hw
      simp only [List.get_eq_getElem] at hw ⊢
      rwa [← hw]
    · intro hmem
      refine ⟨csL.get ⟨c, hc⟩, ?_, ?_⟩
      · simpa using hmem
      · rw [col2i_eq_some csL hnd c hc]
  · intro hr
    have hlen : r < (init_work_lower_co g rlL csL).length := by
      simpa [init_work_lower_co] using hr
    rw [getD_lt _ _ _ hlen, hcs, getD_lt rlL 0 r hr]
    simp only [init_work_lower_co, List.get_eq_getElem, List.getElem_map,
      List.getElem_enum]
    rw [Finset.mem_insert, mem_rowOfNbrs]
    constructor
    · rintro (rfl | ⟨w, hwmem, hw⟩)
      · exact Or.inr rfl
      · rw [col2i_eq_some csL hnd c hc] at hw
        simp only [List.get_eq_getElem] at hw
        refine Or.inl ?_
        rwa [← hw]
    · rintro (hmem | rfl)
      · refine Or.inr ⟨csL.get ⟨c, hc⟩, ?_, ?_⟩
        · simpa using hmem
        · rw [col2i_eq_some csL hnd c hc]
      · exact Or.inl rfl

/-- Witness for C2 on the concrete path graph 0-1-2 with
`rowset_upper = [1]`, `rowset_lower = [2]`, `colset = [0, 2]`. -/
theorem work_matrix_entries_witness :
    ((0 : ℕ) < ([1] : List ℕ).length →
      ((0 : ℕ) ∈ (init_work_upper_co [{1}, {0, 2}, {1}] [1] [0, 2]).getD 0 ∅ ↔
        ([0, 2] : List ℕ).getD 0 0 ∈ nbr [{1}, {0, 2}, {1}] (([1] : List ℕ).getD 0 0))) ∧
    ((0 : ℕ) < ([2] : List ℕ).length →
      ((0 : ℕ) ∈ (init_work_lower_co [{1}, {0, 2}, {1}] [2] [0, 2]).getD 0 ∅ ↔
        (([0, 2] : List ℕ).getD 0 0 ∈ nbr [{1}, {0, 2}, {1}] (([2] : List ℕ).getD 0 0) ∨
          (0 : ℕ) = 0))) :=
  work_matrix_entries [{1}, {0, 2}, {1}] [1] [2] [0, 2] 0 0 (by decide) (by decide)

/-! ### Tag decoding (C10) -/

theorem from_u8_eq_none_of_big (t : ℕ) (h : 5 < t) : PPlane.from_u8 t = none := by
  obtain ⟨k, hk⟩ := Nat.exists_eq_add_of_lt h
  have hk6 : t = k + 6 := by omega
  subst hk6
  rfl

theorem decodePPlanes_none (pplanes : List (ℕ × ℕ)) :
    decodePPlanes pplanes = none ↔ ∃ q ∈ pplanes, PPlane.from_u8 q.2 = none := by
  induction pplanes with
  | nil => simp [decodePPlanes]
  | cons q rest ih =>
    cases hq : PPlane.from_u8 q.2 with
    | none =>
      simp only [decodePPlanes, hq]
      exact ⟨fun _ => ⟨q, List.mem_cons_self q rest, hq⟩, fun _ => trivial⟩
    | some p =>
      cases hrest : decodePPlanes rest with
      | none =>
        rw [hrest] at ih
        obtain ⟨q2, hq2, hq2n⟩ := ih.mp rfl
        simp only [decodePPlanes, hq, hrest, Option.map_none']
        exact ⟨fun _ => ⟨q2, List.mem_cons_of_mem q hq2, hq2n⟩, fun _ => trivial⟩
      | some l =>
        rw [hrest] at ih
        simp only [decodePPlanes, hq, hrest, Option.map_some']
        constructor
        · rintro ⟨⟩
        · rintro ⟨q2, hmem, hq2n⟩
          rcases List.mem_cons.mp hmem with rfl | hq2
          · rw [hq] at hq2n
            cases hq2n
          · exact absurd (ih.mpr ⟨q2, hq2, hq2n⟩) (by simp)

/-- C10.  A plane tag outside 0..=5 makes `pflow::find` abort in the
initial decoding — the result is a panic, neither `Some` nor `None` —
and tags 0..=5 decode to XY, YZ, ZX, X, Y, Z in that order. -/
theorem plane_tag_decoding :
    (PPlane.from_u8 0 = some PPlane.XY ∧ PPlane.from_u8 1 = some PPlane.YZ ∧
      PPlane.from_u8 2 = some PPlane.ZX ∧ PPlane.from_u8 3 = some PPlane.X ∧
      PPlane.from_u8 4 = some PPlane.Y ∧ PPlane.from_u8 5 = some PPlane.Z) ∧
    ∀ (g : Graph) (iset oset : Finset ℕ) (pplanes : List (ℕ × ℕ)),
      (∃ q ∈ pplanes, 5 < q.2) →
        find g iset oset pplanes = Except.error "pplane is in 0..6" := by
  refine ⟨⟨rfl, rfl, rfl, rfl, rfl, rfl⟩, ?_⟩
  intro g iset oset pplanes hbad
  have hdec : decodePPlanes pplanes = none := by
    rw [decodePPlanes_none]
    obtain ⟨q, hq, hq5⟩ := hbad
    exact ⟨q, hq, from_u8_eq_none_of_big q.2 hq5⟩
  unfold find
  rw [hdec]

/-- Witness for C10 at a concrete input containing the tag 6. -/
theorem plane_tag_decoding_witness :
    find [{1}, {0}] {0} {1} [(0, 6)] = Except.error "pplane is in 0..6" :=
  plane_tag_decoding.2 [{1}, {0}] {0} {1} [(0, 6)] ⟨(0, 6), by decide, by decide⟩

/-! ### Frontier preservation across a layer sweep -/

theorem sweep_frontier (g : Graph) (pp : ℕ → PPlane) (l : ℕ) :
    ∀ (ordL : List ℕ) (st : FindSt),
      (ordL.foldl (processVertex g pp l) st).rowset_upper = st.rowset_upper ∧
        (ordL.foldl (processVertex g pp l) st).rowset_lower = st.rowset_lower ∧
        (ordL.foldl (processVertex g pp l) st).colset = st.colset ∧
        (ordL.foldl (processVertex g pp l) st).ocset = st.ocset := by
  intro ordL
  induction ordL with
  | nil => intro st; exact ⟨rfl, rfl, rfl, rfl⟩
  | cons u rest ih =>
    intro st
    obtain ⟨h1, h2, h3, h4⟩ := ih (processVertex g pp l st u)
    refine ⟨?_, ?_, ?_, ?_⟩
    · rw [List.foldl_cons, h1, processVertex_rowset_upper]
    · rw [List.foldl_cons, h2, processVertex_rowset_lower]
    · rw [List.foldl_cons, h3, processVertex_colset]
    · rw [List.foldl_cons, h4, processVertex_ocset]

/-! ### The colset-inputs disjointness invariant (C7) -/

theorem union_sdiff_disjoint (A B iset : Finset ℕ) (h : A ∩ iset = ∅) :
    (A ∪ (B \ iset)) ∩ iset = ∅ := by
  rw [Finset.eq_empty_iff_forall_not_mem] at h ⊢
  intro x hx
  rw [Finset.mem_inter, Finset.mem_union, Finset.mem_sdiff] at hx
  rcases hx with ⟨hA | ⟨_, hBn⟩, hI⟩
  · exact h x (Finset.mem_inter.mpr ⟨hA, hI⟩)
  · exact hBn hI

theorem runLayers_colset_disjoint (g : Graph) (pp : ℕ → PPlane) (iset oset : Finset ℕ)
    (ord : ℕ → Finset ℕ → List ℕ) :
    ∀ (fuel l : ℕ) (st : FindSt), st.colset ∩ iset = ∅ →
      (runLayers g pp iset oset ord fuel l st).colset ∩ iset = ∅ := by
  intro fuel
  induction fuel with
  | zero => intro l st h; exact h
  | succ fuel ih =>
    intro l st h
    unfold runLayers
    have hsw :=
      (sweep_frontier g pp l (ord l st.ocset) { st with cset := ∅ }).2.2.1
    by_cases hl : l = 0
    · rw [if_pos hl]
      apply ih
      simp only [book, seed]
      exact union_sdiff_disjoint _ _ _ (union_sdiff_disjoint _ _ _ (by rw [hsw]; exact h))
    · rw [if_neg hl]
      by_cases hc :
          ((ord l st.ocset).foldl (processVertex g pp l) { st with cset := ∅ }).cset = ∅
      · rw [if_pos hc, hsw]
        exact h
      · rw [if_neg hc]
        apply ih
        simp only [book]
        exact union_sdiff_disjoint _ _ _ (by rw [hsw]; exact h)

/-- The set `XY-like`, written following the specification's own
definition: the vertices measured in the XY plane or with Pauli X or Y
(spec section 3: "XY-like = \x7bXY, X, Y\x7d"). -/
def XYlikeSpec (pdomv : Finset ℕ) (pp : ℕ → PPlane) : Finset ℕ :=
  pdomv.filter (fun v => pp v = PPlane.XY ∨ pp v = PPlane.X ∨ pp v = PPlane.Y)

/-- Counterexample to C7 as stated: the driver does NOT initialize
`colset` to `XY-like ∖ I` (with `XY-like = \x7bXY, X, Y\x7d` as the spec
defines it); a vertex measured in the XY plane is absent from the
initial `colset`. -/
theorem colset_init_not_xylike :
    (initState [{1}, {0}] ∅ {1} {0} (fun _ => PPlane.XY)).colset ≠
      XYlikeSpec {0} (fun _ => PPlane.XY) \ ∅ := by
  decide

/-- C7 (amended).  `colset` starts as the set of Pauli-X/Y-measured
vertices minus `I` (not all of `XY-like` minus `I`), it is disjoint from
`I` there, each vertex iteration keeps both the frontier `colset` and
its scoped version `colset ∖ \x7bu\x7d` disjoint from `I`, and the layer
loop preserves the disjointness from any state onward — so no input
vertex ever becomes a candidate correction column. -/
theorem colset_inputs_disjoint (g : Graph) (iset oset pdomv : Finset ℕ)
    (pp : ℕ → PPlane) :
    ((initState g iset oset pdomv pp).colset =
        (pdomv.filter (fun v => pp v = PPlane.X ∨ pp v = PPlane.Y)) \ iset) ∧
    ((initState g iset oset pdomv pp).colset ∩ iset = ∅) ∧
    (∀ (l : ℕ) (st : FindSt) (u : ℕ), st.colset ∩ iset = ∅ →
      (processVertex g pp l st u).colset ∩ iset = ∅ ∧
        (st.colset.erase u) ∩ iset = ∅) ∧
    (∀ (ord : ℕ → Finset ℕ → List ℕ) (fuel l : ℕ) (st : FindSt),
      st.colset ∩ iset = ∅ →
        (runLayers g pp iset oset ord fuel l st).colset ∩ iset = ∅) := by
  refine ⟨rfl, ?_, ?_, ?_⟩
  · simp only [initState]
    rw [Finset.eq_empty_iff_forall_not_mem]
    intro x hx
    rw [Finset.mem_inter, Finset.mem_sdiff] at hx
    exact hx.1.2 hx.2
  · intro l st u h
    constructor
    · rw [processVertex_colset]
      exact h
    · rw [Finset.eq_empty_iff_forall_not_mem] at h ⊢
      intro x hx
      rw [Finset.mem_inter, Finset.mem_erase] at hx
      exact h x (Finset.mem_inter.mpr ⟨hx.1.2, hx.2⟩)
  · intro ord fuel l st h
    exact runLayers_colset_disjoint g pp iset oset ord fuel l st h

/-- Witness for C7 (amended) at a concrete input and state. -/
theorem colset_inputs_disjoint_witness :
    ((initState [{1}, {0}] {0} {1} {0} (fun _ => PPlane.Z)).colset =
        (({0} : Finset ℕ).filter
          (fun v =>
            (fun _ => PPlane.Z) v = PPlane.X ∨ (fun _ => PPlane.Z) v = PPlane.Y)) \ {0}) ∧
    ((initState [{1}, {0}] {0} {1} {0} (fun _ => PPlane.Z)).colset ∩ {0} = ∅) ∧
    ((processVertex [{1}, {0}] (fun _ => PPlane.Z) 1
          ⟨{0}, ∅, ∅, ∅, {1}, [], [0, 0]⟩ 0).colset ∩ {0} = ∅ ∧
      ((({1} : Finset ℕ).erase 0) ∩ {0} = ∅)) ∧
    ((runLayers [{1}, {0}] (fun _ => PPlane.Z) {0} {1} sortOrd 4 0
        (initState [{1}, {0}] {0} {1} {0} (fun _ => PPlane.Z))).colset ∩ {0} = ∅) := by
  obtain ⟨h1, h2, h3, h4⟩ :=
    colset_inputs_disjoint [{1}, {0}] {0} {1} {0} (fun _ => PPlane.Z)
  exact ⟨h1, h2, h3 1 ⟨{0}, ∅, ∅, ∅, {1}, [], [0, 0]⟩ 0 (by decide),
    h4 sortOrd 4 0 (initState [{1}, {0}] {0} {1} {0} (fun _ => PPlane.Z)) h2⟩

/-! ### The outcomes of `find` (C3) -/

/-- Counterexample to C3 as stated: not every input yields one of the
two outcomes `Some`/`None` — a plane tag outside 0..=5 makes the call
abort instead. -/
theorem find_not_two_outcomes :
    find [{1}, {0}] ∅ {1} [(0, 7)] = Except.error "pplane is in 0..6" ∧
      find [{1}, {0}] ∅ {1} [(0, 7)] ≠ Except.ok none := by
  constructor
  · rfl
  · intro h
    cases h

/-- The body of `findCoreWith`, with its let-bindings expanded: the
state at loop exit `S` gates the result through the exit test and the
three checks. -/
theorem findCoreWith_eq (ord : ℕ → Finset ℕ → List ℕ) (g : Graph)
    (iset oset pdomv : Finset ℕ) (pp : ℕ → PPlane) (S : FindSt)
    (hS : S = runLayers g pp iset oset ord (g.length + 2) 0
      (initState g iset oset pdomv pp)) :
    findCoreWith ord g iset oset pdomv pp =
      (if S.ocset = ∅ then
        if check_domain S.f (Finset.range g.length) iset oset = true then
          if check_initial S.layer oset = true then
            if check_definition S.f S.layer g pdomv pp = true then
              Except.ok (some (S.f, S.layer))
            else Except.error "check_definition failed"
          else Except.error "check_initial failed"
        else Except.error "check_domain failed"
      else Except.ok none) := by
  subst hS
  rfl

theorem check_domain_iff (f : PFlow) (vset iset oset : Finset ℕ) :
    check_domain f vset iset oset = true ↔
      fdom f = vset \ oset ∧ ∀ q ∈ f, q.2 ⊆ vset \ iset := by
  unfold check_domain
  rw [Bool.and_eq_true, decide_eq_true_eq, List.all_eq_true]
  simp only [decide_eq_true_eq]

theorem check_initial_iff (layer : List ℕ) (oset : Finset ℕ) :
    check_initial layer oset = true ↔ ∀ v ∈ oset, layer.getD v 0 = 0 := by
  unfold check_initial
  rw [decide_eq_true_eq]

/-- C3 (amended).  After a successful tag decoding, `pflow::find`
returns `Some` iff the loop exits with `ocset` empty AND the three
post-construction checks pass (a failing check aborts instead of
returning), and it returns `None` iff the loop exits with `ocset`
nonempty; an undecodable tag aborts before the loop.  So the two
outcomes `Some`/`None` are exactly the non-aborting executions. -/
theorem find_outcomes_amended (g : Graph) (iset oset : Finset ℕ)
    (pplanes : List (ℕ × ℕ)) (pps : List (ℕ × PPlane))
    (hdec : decodePPlanes pplanes = some pps) :
    (find g iset oset pplanes = Except.ok none ↔
      (runLayers g (fun u => (pps.lookup u).getD PPlane.XY) iset oset sortOrd
          (g.length + 2) 0
          (initState g iset oset ((pps.map Prod.fst).toFinset)
            (fun u => (pps.lookup u).getD PPlane.XY))).ocset ≠ ∅) ∧
    ((∃ r, find g iset oset pplanes = Except.ok (some r)) ↔
      ((runLayers g (fun u => (pps.lookup u).getD PPlane.XY) iset oset sortOrd
          (g.length + 2) 0
          (initState g iset oset ((pps.map Prod.fst).toFinset)
            (fun u => (pps.lookup u).getD PPlane.XY))).ocset = ∅ ∧
        check_domain
          (runLayers g (fun u => (pps.lookup u).getD PPlane.XY) iset oset sortOrd
            (g.length + 2) 0
            (initState g iset oset ((pps.map Prod.fst).toFinset)
              (fun u => (pps.lookup u).getD PPlane.XY))).f
          (Finset.range g.length) iset oset = true ∧
        check_initial
          (runLayers g (fun u => (pps.lookup u).getD PPlane.XY) iset oset sortOrd
            (g.length + 2) 0
            (initState g iset oset ((pps.map Prod.fst).toFinset)
              (fun u => (pps.lookup u).getD PPlane.XY))).layer oset = true ∧
        check_definition
          (runLayers g (fun u => (pps.lookup u).getD PPlane.XY) iset oset sortOrd
            (g.length + 2) 0
            (initState g iset oset ((pps.map Prod.fst).toFinset)
              (fun u => (pps.lookup u).getD PPlane.XY))).f
          (runLayers g (fun u => (pps.lookup u).getD PPlane.XY) iset oset sortOrd
            (g.length + 2) 0
            (initState g iset oset ((pps.map Prod.fst).toFinset)
              (fun u => (pps.lookup u).getD PPlane.XY))).layer g
          ((pps.map Prod.fst).toFinset)
          (fun u => (pps.lookup u).getD PPlane.XY) = true)) := by
  have hfind : find g iset oset pplanes =
      findCoreWith sortOrd g iset oset ((pps.map Prod.fst).toFinset)
        (fun u => (pps.lookup u).getD PPlane.XY) := by
    unfold find
    rw [hdec]
  rw [hfind,
    findCoreWith_eq sortOrd g iset oset ((pps.map Prod.fst).toFinset)
      (fun u => (pps.lookup u).getD PPlane.XY) _ rfl]
  set stF :=
    runLayers g (fun u => (pps.lookup u).getD PPlane.XY) iset oset sortOrd
      (g.length + 2) 0
      (initState g iset oset ((pps.map Prod.fst).toFinset)
        (fun u => (pps.lookup u).getD PPlane.XY)) with hstF
  by_cases hoc : stF.ocset = ∅
  · rw [if_pos hoc]
    by_cases hcd : check_domain stF.f (Finset.range g.length) iset oset
    · rw [if_pos hcd]
      by_cases hci : check_initial stF.layer oset
      · rw [if_pos hci]
        by_cases hcf :
            check_definition stF.f stF.layer g ((pps.map Prod.fst).toFinset)
              (fun u => (pps.lookup u).getD PPlane.XY)
        · rw [if_pos hcf]
          refine ⟨⟨(fun h => absurd h (by simp)), (fun h => absurd hoc h)⟩, ?_⟩
          exact ⟨(fun _ => ⟨hoc, hcd, hci, hcf⟩), (fun _ => ⟨(stF.f, stF.layer), rfl⟩)⟩
        · rw [if_neg hcf]
          refine ⟨⟨(fun h => by cases h), (fun h => absurd hoc h)⟩, ?_⟩
          exact ⟨(fun hr2 => by obtain ⟨r, hr⟩ := hr2; cases hr), (fun h4a => absurd h4a.2.2.2 hcf)⟩
      · rw [if_neg hci]
        refine ⟨⟨(fun h => by cases h), (fun h => absurd hoc h)⟩, ?_⟩
        exact ⟨(fun hr2 => by obtain ⟨r, hr⟩ := hr2; cases hr), (fun h3a => absurd h3a.2.2.1 hci)⟩
    · rw [if_neg hcd]
      refine ⟨⟨(fun h => by cases h), (fun h => absurd hoc h)⟩, ?_⟩
      exact ⟨(fun hr2 => by obtain ⟨r, hr⟩ := hr2; cases hr), (fun h2a => absurd h2a.2.1 hcd)⟩
  · rw [if_neg hoc]
    refine ⟨⟨(fun _ => hoc), (fun _ => rfl)⟩, ?_⟩
    exact ⟨(fun hr2 => by obtain ⟨r, hr⟩ := hr2; cases hr), (fun h1a => absurd h1a.1 hoc)⟩

/-- Witness for C3 (amended) at the two-vertex line with `I = \x7b0\x7d`,
`O = \x7b1\x7d` and plane XY for vertex 0. -/
theorem find_outcomes_amended_witness :
    (find [{1}, {0}] {0} {1} [(0, 0)] = Except.ok none ↔
      (runLayers [{1}, {0}]
          (fun u => (([(0, PPlane.XY)] : List (ℕ × PPlane)).lookup u).getD PPlane.XY)
          {0} {1} sortOrd 4 0
          (initState [{1}, {0}] {0} {1}
            ((([(0, PPlane.XY)] : List (ℕ × PPlane)).map Prod.fst).toFinset)
            (fun u =>
              (([(0, PPlane.XY)] : List (ℕ × PPlane)).lookup u).getD PPlane.XY))).ocset ≠
        ∅) ∧
    ((∃ r, find [{1}, {0}] {0} {1} [(0, 0)] = Except.ok (some r)) ↔
      ((runLayers [{1}, {0}]
          (fun u => (([(0, PPlane.XY)] : List (ℕ × PPlane)).lookup u).getD PPlane.XY)
          {0} {1} sortOrd 4 0
          (initState [{1}, {0}] {0} {1}
            ((([(0, PPlane.XY)] : List (ℕ × PPlane)).map Prod.fst).toFinset)
            (fun u =>
              (([(0, PPlane.XY)] : List (ℕ × PPlane)).lookup u).getD PPlane.XY))).ocset =
          ∅ ∧
        check_domain
          (runLayers [{1}, {0}]
            (fun u => (([(0, PPlane.XY)] : List (ℕ × PPlane)).lookup u).getD PPlane.XY)
            {0} {1} sortOrd 4 0
            (initState [{1}, {0}] {0} {1}
              ((([(0, PPlane.XY)] : List (ℕ × PPlane)).map Prod.fst).toFinset)
              (fun u =>
                (([(0, PPlane.XY)] : List (ℕ × PPlane)).lookup u).getD PPlane.XY))).f
          (Finset.range ([{1}, {0}] : Graph).length) {0} {1} = true ∧
        check_initial
          (runLayers [{1}, {0}]
            (fun u => (([(0, PPlane.XY)] : List (ℕ × PPlane)).lookup u).getD PPlane.XY)
            {0} {1} sortOrd 4 0
            (initState [{1}, {0}] {0} {1}
              ((([(0, PPlane.XY)] : List (ℕ × PPlane)).map Prod.fst).toFinset)
              (fun u =>
                (([(0, PPlane.XY)] : List (ℕ × PPlane)).lookup u).getD PPlane.XY))).layer
          {1} = true ∧
        check_definition
          (runLayers [{1}, {0}]
            (fun u => (([(0, PPlane.XY)] : List (ℕ × PPlane)).lookup u).getD PPlane.XY)
            {0} {1} sortOrd 4 0
            (initState [{1}, {0}] {0} {1}
              ((([(0, PPlane.XY)] : List (ℕ × PPlane)).map Prod.fst).toFinset)
              (fun u =>
                (([(0, PPlane.XY)] : List (ℕ × PPlane)).lookup u).getD PPlane.XY))).f
          (runLayers [{1}, {0}]
            (fun u => (([(0, PPlane.XY)] : List (ℕ × PPlane)).lookup u).getD PPlane.XY)
            {0} {1} sortOrd 4 0
            (initState [{1}, {0}] {0} {1}
              ((([(0, PPlane.XY)] : List (ℕ × PPlane)).map Prod.fst).toFinset)
              (fun u =>
                (([(0, PPlane.XY)] : List (ℕ × PPlane)).lookup u).getD PPlane.XY))).layer
          [{1}, {0}]
          ((([(0, PPlane.XY)] : List (ℕ × PPlane)).map Prod.fst).toFinset)
          (fun u =>
            (([(0, PPlane.XY)] : List (ℕ × PPlane)).lookup u).getD PPlane.XY) = true)) :=
  find_outcomes_amended [{1}, {0}] {0} {1} [(0, 0)] [(0, PPlane.XY)] rfl

/-! ### Postconditions of a successful `find` (C8) -/

/-- C8.  Whenever `pflow::find` returns `Some((f, layer))`, the domain of
`f` is exactly `V ∖ O`, every correction set is contained in `V ∖ I`,
and every output vertex has layer 0 (the three `unwrap`ped checks gate
the `Some` return). -/
theorem find_success_postconditions (g : Graph) (iset oset : Finset ℕ)
    (pplanes : List (ℕ × ℕ)) (f : PFlow) (layer : List ℕ)
    (h : find g iset oset pplanes = Except.ok (some (f, layer))) :
    fdom f = Finset.range g.length \ oset ∧
      (∀ q ∈ f, q.2 ⊆ Finset.range g.length \ iset) ∧
      (∀ v ∈ oset, layer.getD v 0 = 0) := by
  cases hdec : decodePPlanes pplanes with
  | none =>
    rw [show find g iset oset pplanes = Except.error "pplane is in 0..6" by
      unfold find; rw [hdec]] at h
    cases h
  | some pps =>
    rw [show find g iset oset pplanes =
        findCoreWith sortOrd g iset oset ((pps.map Prod.fst).toFinset)
          (fun u => (pps.lookup u).getD PPlane.XY) by
      unfold find; rw [hdec]] at h
    rw [findCoreWith_eq sortOrd g iset oset ((pps.map Prod.fst).toFinset)
      (fun u => (pps.lookup u).getD PPlane.XY) _ rfl] at h
    set stF :=
      runLayers g (fun u => (pps.lookup u).getD PPlane.XY) iset oset sortOrd
        (g.length + 2) 0
        (initState g iset oset ((pps.map Prod.fst).toFinset)
          (fun u => (pps.lookup u).getD PPlane.XY)) with hstF
    by_cases hoc : stF.ocset = ∅
    · rw [if_pos hoc] at h
      by_cases hcd : check_domain stF.f (Finset.range g.length) iset oset
      · rw [if_pos hcd] at h
        by_cases hci : check_initial stF.layer oset
        · rw [if_pos hci] at h
          by_cases hcf :
              check_definition stF.f stF.layer g ((pps.map Prod.fst).toFinset)
                (fun u => (pps.lookup u).getD PPlane.XY)
          · rw [if_pos hcf] at h
            have hfl : stF.f = f ∧ stF.layer = layer := by
              have h2 := h
              simp only [Except.ok.injEq, Option.some.injEq, Prod.mk.injEq] at h2
              exact h2
            obtain ⟨hcd1, hcd2⟩ := (check_domain_iff stF.f _ iset oset).mp hcd
            have hci1 := (check_initial_iff stF.layer oset).mp hci
            rw [hfl.1] at hcd1 hcd2
            rw [hfl.2] at hci1
            exact ⟨hcd1, hcd2, hci1⟩
          · rw [if_neg hcf] at h
            cases h
        · rw [if_neg hci] at h
          cases h
      · rw [if_neg hcd] at h
        cases h
    · rw [if_neg hoc] at h
      cases h

/-- Witness for C8 on the two-vertex line `0 - 1` with `I = \x7b0\x7d`,
`O = \x7b1\x7d`, vertex 0 measured in XY: the run succeeds with
`f(0) = \x7b1\x7d` and `layer = [1, 0]`. -/
theorem find_success_postconditions_witness :
    fdom [(0, ({1} : Finset ℕ))] = Finset.range ([{1}, {0}] : Graph).length \ {1} ∧
      (∀ q ∈ [(0, ({1} : Finset ℕ))],
        q.2 ⊆ Finset.range ([{1}, {0}] : Graph).length \ {0}) ∧
      (∀ v ∈ ({1} : Finset ℕ), ([1, 0] : List ℕ).getD v 0 = 0) :=
  find_success_postconditions [{1}, {0}] {0} {1} [(0, 0)] [(0, {1})] [1, 0] (by decide)

/-! ### Order invariance of a layer sweep (C5) -/

theorem vertexResult_congr_of_pv (g : Graph) (pp : ℕ → PPlane) (l : ℕ) (st : FindSt)
    (u v : ℕ) :
    vertexResult g pp (processVertex g pp l st u) v = vertexResult g pp st v :=
  vertexResult_congr g pp _ st v (processVertex_rowset_upper g pp l st u)
    (processVertex_rowset_lower g pp l st u) (processVertex_colset g pp l st u)

theorem processVertex_none (g : Graph) (pp : ℕ → PPlane) (l : ℕ) (st : FindSt) (u : ℕ)
    (h : vertexResult g pp st u = none) : processVertex g pp l st u = st := by
  rw [processVertex_eq, h]

theorem processVertex_some (g : Graph) (pp : ℕ → PPlane) (l : ℕ) (st : FindSt)
    (u : ℕ) (fu : Finset ℕ) (h : vertexResult g pp st u = some fu) :
    processVertex g pp l st u =
      { st with
        f := (u, fu) :: st.f
        layer := st.layer.set u l
        cset := insert u st.cset } := by
  rw [processVertex_eq, h]

theorem sweep_cset (g : Graph) (pp : ℕ → PPlane) (l : ℕ) :
    ∀ (ordL : List ℕ) (st : FindSt),
      (ordL.foldl (processVertex g pp l) st).cset =
        st.cset ∪
          (ordL.filter (fun u => (vertexResult g pp st u).isSome)).toFinset := by
  intro ordL
  induction ordL with
  | nil => intro st; simp
  | cons u rest ih =>
    intro st
    rw [List.foldl_cons, ih (processVertex g pp l st u)]
    have hpred :
        (fun v => (vertexResult g pp (processVertex g pp l st u) v).isSome) =
          (fun v => (vertexResult g pp st v).isSome) := by
      funext v
      rw [vertexResult_congr_of_pv]
    rw [hpred]
    cases hres : vertexResult g pp st u with
    | none =>
      rw [processVertex_none g pp l st u hres]
      simp [List.filter_cons, hres]
    | some fu =>
      rw [processVertex_some g pp l st u fu hres]
      simp only [List.filter_cons, hres, Option.isSome_some, if_true,
        List.toFinset_cons]
      ext x
      simp only [Finset.mem_union, Finset.mem_insert, List.mem_toFinset]
      tauto

theorem set_getElem_self (L : List ℕ) (i x : ℕ) :
    (L.set i x)[i]? = if i < L.length then some x else none := by
  by_cases h : i < L.length
  · rw [List.getElem?_set_self h, if_pos h]
  · rw [if_neg h]
    apply List.getElem?_eq_none
    rw [List.length_set]
    omega

theorem sweep_layer (g : Graph) (pp : ℕ → PPlane) (l : ℕ) :
    ∀ (ordL : List ℕ) (st : FindSt) (i : ℕ),
      ((ordL.foldl (processVertex g pp l) st).layer)[i]? =
        if i ∈ ordL ∧ (vertexResult g pp st i).isSome then (st.layer.set i l)[i]?
        else st.layer[i]? := by
  intro ordL
  induction ordL with
  | nil => intro st i; simp
  | cons u rest ih =>
    intro st i
    rw [List.foldl_cons, ih (processVertex g pp l st u) i, vertexResult_congr_of_pv]
    cases hres : vertexResult g pp st u with
    | none =>
      rw [processVertex_none g pp l st u hres]
      by_cases hiu : i = u
      · subst hiu
        simp [hres, List.mem_cons]
      · simp [List.mem_cons, hiu]
    | some fu =>
      have hlayer : (processVertex g pp l st u).layer = st.layer.set u l := by
        rw [processVertex_some g pp l st u fu hres]
      rw [hlayer]
      by_cases hiu : i = u
      · subst hiu
        rw [List.set_set, ite_self,
          if_pos ⟨List.mem_cons_self i rest, by rw [hres]; rfl⟩]
      · have hne : u ≠ i := fun hc => hiu hc.symm
        rw [List.getElem?_set_ne hne]
        have hsetset : ((st.layer.set u l).set i l)[i]? = (st.layer.set i l)[i]? := by
          rw [set_getElem_self, set_getElem_self, List.length_set]
        rw [hsetset]
        have hiu2 : (i = u) = False := eq_false hiu
        simp only [List.mem_cons, hiu2, false_or]

theorem sweep_f (g : Graph) (pp : ℕ → PPlane) (l : ℕ) :
    ∀ (ordL : List ℕ) (st : FindSt),
      (ordL.foldl (processVertex g pp l) st).f =
        ((ordL.filter (fun u => (vertexResult g pp st u).isSome)).reverse.map
            (fun u => (u, (vertexResult g pp st u).getD ∅))) ++ st.f := by
  intro ordL
  induction ordL with
  | nil => intro st; simp
  | cons u rest ih =>
    intro st
    rw [List.foldl_cons, ih (processVertex g pp l st u)]
    have hpred :
        (fun v => (vertexResult g pp (processVertex g pp l st u) v).isSome) =
          (fun v => (vertexResult g pp st v).isSome) := by
      funext v
      rw [vertexResult_congr_of_pv]
    have hfn :
        (fun v => (v, (vertexResult g pp (processVertex g pp l st u) v).getD ∅)) =
          (fun v => (v, (vertexResult g pp st v).getD ∅)) := by
      funext v
      rw [vertexResult_congr_of_pv]
    rw [hpred, hfn]
    cases hres : vertexResult g pp st u with
    | none =>
      rw [processVertex_none g pp l st u hres]
      simp [List.filter_cons, hres]
    | some fu =>
      rw [processVertex_some g pp l st u fu hres]
      simp only [List.filter_cons, hres, Option.isSome_some, if_pos,
        List.reverse_cons, List.map_append, List.map_cons, List.map_nil,
        List.append_assoc, List.cons_append, List.nil_append]
      simp [hres]

/-- The state relation preserved across two runs that differ only in the
sweep order: every component is equal except `f`, whose association
lists are permutations of each other (the map they represent is the
same). -/
def StRel (st1 st2 : FindSt) : Prop :=
  st1.ocset = st2.ocset ∧ st1.cset = st2.cset ∧
    st1.rowset_upper = st2.rowset_upper ∧ st1.rowset_lower = st2.rowset_lower ∧
    st1.colset = st2.colset ∧ st1.layer = st2.layer ∧ st1.f.Perm st2.f

theorem StRel_refl (st : FindSt) : StRel st st :=
  ⟨rfl, rfl, rfl, rfl, rfl, rfl, List.Perm.refl _⟩

/-- A valid enumeration strategy for the sweep: at every layer it lists
the members of the given set exactly once. -/
def validOrd (ord : ℕ → Finset ℕ → List ℕ) : Prop :=
  ∀ (l : ℕ) (s : Finset ℕ), (ord l s).Nodup ∧ (ord l s).toFinset = s

theorem sweep_rel (g : Graph) (pp : ℕ → PPlane) (l : ℕ) (st1 st2 : FindSt)
    (ordL1 ordL2 : List ℕ) (hrel : StRel st1 st2) (nd1 : ordL1.Nodup)
    (nd2 : ordL2.Nodup) (hts : ordL1.toFinset = ordL2.toFinset) :
    StRel (ordL1.foldl (processVertex g pp l) st1)
      (ordL2.foldl (processVertex g pp l) st2) := by
  obtain ⟨hoc, hcs, hru, hrl, hco, hla, hf⟩ := hrel
  have hperm : ordL1.Perm ordL2 := List.perm_of_nodup_nodup_toFinset_eq nd1 nd2 hts
  have hvr : ∀ v, vertexResult g pp st1 v = vertexResult g pp st2 v := fun v =>
    vertexResult_congr g pp st1 st2 v hru hrl hco
  have hpred :
      (fun v => (vertexResult g pp st1 v).isSome) =
        (fun v => (vertexResult g pp st2 v).isSome) := by
    funext v
    rw [hvr]
  have hfn :
      (fun v => (v, (vertexResult g pp st1 v).getD ∅)) =
        (fun v => (v, (vertexResult g pp st2 v).getD ∅)) := by
    funext v
    rw [hvr]
  obtain ⟨f1u, f1l, f1c, f1o⟩ := sweep_frontier g pp l ordL1 st1
  obtain ⟨f2u, f2l, f2c, f2o⟩ := sweep_frontier g pp l ordL2 st2
  have hfiltperm :
      (ordL1.filter (fun v => (vertexResult g pp st1 v).isSome)).Perm
        (ordL2.filter (fun v => (vertexResult g pp st2 v).isSome)) := by
    rw [hpred]
    exact hperm.filter _
  refine ⟨?_, ?_, ?_, ?_, ?_, ?_, ?_⟩
  · rw [f1o, f2o, hoc]
  · rw [sweep_cset, sweep_cset, hcs,
      List.toFinset_eq_of_perm _ _ hfiltperm]
  · rw [f1u, f2u, hru]
  · rw [f1l, f2l, hrl]
  · rw [f1c, f2c, hco]
  · apply List.ext_getElem?
    intro i
    rw [sweep_layer, sweep_layer, hvr, hla]
    simp only [hperm.mem_iff]
  · rw [sweep_f, sweep_f, hfn]
    exact List.Perm.append
      ((((List.reverse_perm _).trans hfiltperm).trans
        (List.reverse_perm _).symm).map _) hf

theorem book_rel (iset : Finset ℕ) (st1 st2 : FindSt) (h : StRel st1 st2) :
    StRel (book iset st1) (book iset st2) := by
  obtain ⟨hoc, hcs, hru, hrl, hco, hla, hf⟩ := h
  exact ⟨by simp [book, hoc, hcs], by simp [book, hcs], by simp [book, hru, hcs],
    by simp [book, hrl, hcs], by simp [book, hco, hcs], by simp [book, hla],
    by simpa [book] using hf⟩

theorem seed_rel (iset oset : Finset ℕ) (st1 st2 : FindSt) (h : StRel st1 st2) :
    StRel (seed iset oset st1) (seed iset oset st2) := by
  obtain ⟨hoc, hcs, hru, hrl, hco, hla, hf⟩ := h
  exact ⟨by simp [seed, hoc], by simp [seed, hcs], by simp [seed, hru],
    by simp [seed, hrl], by simp [seed, hco], by simp [seed, hla],
    by simpa [seed] using hf⟩

theorem clear_cset_rel (st1 st2 : FindSt) (h : StRel st1 st2) :
    StRel { st1 with cset := ∅ } { st2 with cset := ∅ } := by
  obtain ⟨hoc, hcs, hru, hrl, hco, hla, hf⟩ := h
  exact ⟨hoc, rfl, hru, hrl, hco, hla, hf⟩

theorem runLayers_rel (g : Graph) (pp : ℕ → PPlane) (iset oset : Finset ℕ)
    (ord1 ord2 : ℕ → Finset ℕ → List ℕ) (h1 : validOrd ord1) (h2 : validOrd ord2) :
    ∀ (fuel l : ℕ) (st1 st2 : FindSt), StRel st1 st2 →
      StRel (runLayers g pp iset oset ord1 fuel l st1)
        (runLayers g pp iset oset ord2 fuel l st2) := by
  intro fuel
  induction fuel with
  | zero => intro l st1 st2 h; exact h
  | succ fuel ih =>
    intro l st1 st2 hrel
    unfold runLayers
    have hswrel :
        StRel
          ((ord1 l st1.ocset).foldl (processVertex g pp l) { st1 with cset := ∅ })
          ((ord2 l st2.ocset).foldl (processVertex g pp l) { st2 with cset := ∅ }) := by
      apply sweep_rel g pp l _ _ _ _ (clear_cset_rel st1 st2 hrel) (h1 l st1.ocset).1
        (h2 l st2.ocset).1
      rw [(h1 l st1.ocset).2, (h2 l st2.ocset).2, hrel.1]
    by_cases hl : l = 0
    · rw [if_pos hl, if_pos hl]
      exact ih 1 _ _ (book_rel iset _ _ (seed_rel iset oset _ _ hswrel))
    · rw [if_neg hl, if_neg hl]
      have hcseq :
          ((ord1 l st1.ocset).foldl (processVertex g pp l)
              { st1 with cset := ∅ }).cset =
            ((ord2 l st2.ocset).foldl (processVertex g pp l)
              { st2 with cset := ∅ }).cset := hswrel.2.1
      by_cases hc :
          ((ord1 l st1.ocset).foldl (processVertex g pp l)
            { st1 with cset := ∅ }).cset = ∅
      · rw [if_pos hc, if_pos (by rw [← hcseq]; exact hc)]
        exact hswrel
      · rw [if_neg hc, if_neg (by rw [← hcseq]; exact hc)]
        exact ih (l + 1) _ _ (book_rel iset _ _ hswrel)

theorem perm_all {α : Type} {l1 l2 : List α} (h : l1.Perm l2) (p : α → Bool) :
    l1.all p = l2.all p := by
  induction h with
  | nil => rfl
  | cons x _ ih => simp [List.all_cons, ih]
  | swap x y l => simp [List.all_cons, ← Bool.and_assoc, Bool.and_comm]
  | trans _ _ ih1 ih2 => rw [ih1, ih2]

theorem check_domain_perm (f1 f2 : PFlow) (vset iset oset : Finset ℕ)
    (h : f1.Perm f2) :
    check_domain f1 vset iset oset = check_domain f2 vset iset oset := by
  unfold check_domain fdom
  rw [List.toFinset_eq_of_perm _ _ (h.map Prod.fst), perm_all h]

theorem check_definition_perm (f1 f2 : PFlow) (layer : List ℕ) (g : Graph)
    (pdomv : Finset ℕ) (pp : ℕ → PPlane) (h : f1.Perm f2) :
    check_definition f1 layer g pdomv pp = check_definition f2 layer g pdomv pp := by
  unfold check_definition
  rw [h.length_eq, perm_all h]

/-- The relation between the results of two runs differing only in sweep
order: identical verdict (panic message, absence, or success), identical
layer vector, and correction maps that are permutations of each other as
association lists. -/
def ResultMatches :
    Except String (Option (PFlow × List ℕ)) →
      Except String (Option (PFlow × List ℕ)) → Prop
  | Except.error e1, Except.error e2 => e1 = e2
  | Except.ok none, Except.ok none => True
  | Except.ok (some q1), Except.ok (some q2) => q1.2 = q2.2 ∧ q1.1.Perm q2.1
  | _, _ => False

/-- C5.  Two executions of `pflow::find` on the same inputs that differ
only in the order in which `ocset` is enumerated within each layer sweep
accept the same vertex set at every layer (the accepted `cset` of every
sweep is order-independent), stay in lockstep through the whole layer
loop, and end with the same verdict and layer assignment. -/
theorem find_order_invariance (g : Graph) (iset oset pdomv : Finset ℕ)
    (pp : ℕ → PPlane) (ord1 ord2 : ℕ → Finset ℕ → List ℕ) (h1 : validOrd ord1)
    (h2 : validOrd ord2) :
    (∀ (l : ℕ) (st : FindSt),
      ((ord1 l st.ocset).foldl (processVertex g pp l) st).cset =
        ((ord2 l st.ocset).foldl (processVertex g pp l) st).cset) ∧
    (∀ (fuel l : ℕ) (st1 st2 : FindSt), StRel st1 st2 →
      StRel (runLayers g pp iset oset ord1 fuel l st1)
        (runLayers g pp iset oset ord2 fuel l st2)) ∧
    ResultMatches (findCoreWith ord1 g iset oset pdomv pp)
      (findCoreWith ord2 g iset oset pdomv pp) := by
  refine ⟨?_, ?_, ?_⟩
  · intro l st
    exact (sweep_rel g pp l st st _ _ (StRel_refl st) (h1 l st.ocset).1
      (h2 l st.ocset).1 (by rw [(h1 l st.ocset).2, (h2 l st.ocset).2])).2.1
  · exact runLayers_rel g pp iset oset ord1 ord2 h1 h2
  · have hrel :=
      runLayers_rel g pp iset oset ord1 ord2 h1 h2 (g.length + 2) 0
        (initState g iset oset pdomv pp) (initState g iset oset pdomv pp)
        (StRel_refl _)
    obtain ⟨hoc, hcs, hru, hrl, hco, hla, hf⟩ := hrel
    rw [findCoreWith_eq ord1 g iset oset pdomv pp _ rfl,
      findCoreWith_eq ord2 g iset oset pdomv pp _ rfl]
    set S1 := runLayers g pp iset oset ord1 (g.length + 2) 0
      (initState g iset oset pdomv pp) with hS1
    set S2 := runLayers g pp iset oset ord2 (g.length + 2) 0
      (initState g iset oset pdomv pp) with hS2
    have hcd := check_domain_perm S1.f S2.f (Finset.range g.length) iset oset hf
    have hcf2 :
        check_definition S2.f S2.layer g pdomv pp =
          check_definition S1.f S1.layer g pdomv pp := by
      rw [← hla, check_definition_perm S1.f S2.f S1.layer g pdomv pp hf]
    by_cases h0 : S1.ocset = ∅
    · have h0b : S2.ocset = ∅ := by rw [← hoc]; exact h0
      rw [if_pos h0, if_pos h0b]
      by_cases hd : check_domain S1.f (Finset.range g.length) iset oset = true
      · have hdb : check_domain S2.f (Finset.range g.length) iset oset = true := by
          rw [← hcd]; exact hd
        rw [if_pos hd, if_pos hdb]
        by_cases hi : check_initial S1.layer oset = true
        · have hib : check_initial S2.layer oset = true := by rw [← hla]; exact hi
          rw [if_pos hi, if_pos hib]
          by_cases hcf1 : check_definition S1.f S1.layer g pdomv pp = true
          · have hcfb : check_definition S2.f S2.layer g pdomv pp = true := by
              rw [hcf2]; exact hcf1
            rw [if_pos hcf1, if_pos hcfb]
            exact ⟨hla, hf⟩
          · have hcfb : ¬check_definition S2.f S2.layer g pdomv pp = true := by
              rw [hcf2]; exact hcf1
            rw [if_neg hcf1, if_neg hcfb]
            rfl
        · have hib : ¬check_initial S2.layer oset = true := by rw [← hla]; exact hi
          rw [if_neg hi, if_neg hib]
          rfl
      · have hdb : ¬check_domain S2.f (Finset.range g.length) iset oset = true := by
          rw [← hcd]; exact hd
        rw [if_neg hd, if_neg hdb]
        rfl
    · have h0b : ¬S2.ocset = ∅ := by rw [← hoc]; exact h0
      rw [if_neg h0, if_neg h0b]
      trivial

/-- Witness for C5: the canonical ascending sweep against the reversed
sweep on the length-5 chain input. -/
theorem find_order_invariance_witness :
    ResultMatches
      (findCoreWith sortOrd [{1}, {0, 2}, {1, 3}, {2, 4}, {3}] {0} {4}
        {0, 1, 2, 3} (fun _ => PPlane.XY))
      (findCoreWith (fun _ s => (sortedList s).reverse) [{1}, {0, 2}, {1, 3}, {2, 4}, {3}]
        {0} {4} {0, 1, 2, 3} (fun _ => PPlane.XY)) :=
  (find_order_invariance [{1}, {0, 2}, {1, 3}, {2, 4}, {3}] {0} {4} {0, 1, 2, 3}
      (fun _ => PPlane.XY) sortOrd (fun _ s => (sortedList s).reverse)
      (fun l s => ⟨sortedList_nodup s, sortedList_toFinset s⟩)
      (fun l s =>
        ⟨List.nodup_reverse.mpr (sortedList_nodup s), by
          rw [List.toFinset_reverse, sortedList_toFinset]⟩)).2.2

/-! ### Adequacy of the iteration bound

The Rust layer loop `for l in 0_usize..` is unbounded; the embedding
runs it on `|V| + 2` units of fuel.  The following theorems show the
bound is adequate: the loop provably breaks within it, so giving it any
more fuel does not change the outcome. -/

theorem sweep_cset_subset (g : Graph) (pp : ℕ → PPlane) (l : ℕ) (ordL : List ℕ)
    (st : FindSt) :
    (ordL.foldl (processVertex g pp l) st).cset ⊆ st.cset ∪ ordL.toFinset := by
  rw [sweep_cset]
  apply Finset.union_subset_union (Finset.Subset.refl _)
  intro x hx
  rw [List.mem_toFinset] at hx ⊢
  exact (List.mem_filter.mp hx).1

theorem runLayers_stable_pos (g : Graph) (pp : ℕ → PPlane) (iset oset : Finset ℕ)
    (ord : ℕ → Finset ℕ → List ℕ) (hord : validOrd ord) :
    ∀ (fuel fuel2 l : ℕ) (st : FindSt), st.ocset.card < fuel → fuel ≤ fuel2 →
      l ≠ 0 →
      runLayers g pp iset oset ord fuel l st =
        runLayers g pp iset oset ord fuel2 l st := by
  intro fuel
  induction fuel with
  | zero => intro fuel2 l st hcard; omega
  | succ fuel ih =>
    intro fuel2 l st hcard hle hl
    cases fuel2 with
    | zero => omega
    | succ k =>
      unfold runLayers
      rw [if_neg hl, if_neg hl]
      set st1 := (ord l st.ocset).foldl (processVertex g pp l) { st with cset := ∅ }
        with hst1
      by_cases hc : st1.cset = ∅
      · rw [if_pos hc, if_pos hc]
      · rw [if_neg hc, if_neg hc]
        have hocs : st1.ocset = st.ocset :=
          (sweep_frontier g pp l (ord l st.ocset) { st with cset := ∅ }).2.2.2
        have hsub : st1.cset ⊆ st.ocset := by
          have h2 := sweep_cset_subset g pp l (ord l st.ocset) { st with cset := ∅ }
          rw [(hord l st.ocset).2] at h2
          intro x hx
          have := h2 hx
          rw [Finset.mem_union] at this
          rcases this with h3 | h3
          · exact absurd h3 (Finset.not_mem_empty x)
          · exact h3
        have hlt : (book iset st1).ocset.card < st.ocset.card := by
          have hss : st1.ocset \ st1.cset ⊂ st.ocset := by
            rw [hocs]
            exact Finset.sdiff_ssubset hsub (Finset.nonempty_iff_ne_empty.mpr hc)
          exact Finset.card_lt_card hss
        exact ih k (l + 1) (book iset st1) (by omega) (by omega) (by omega)

theorem runLayers_stable_zero (g : Graph) (pp : ℕ → PPlane) (iset oset : Finset ℕ)
    (ord : ℕ → Finset ℕ → List ℕ) (hord : validOrd ord) (fuel fuel2 : ℕ)
    (st : FindSt) (hcard : st.ocset.card + 1 < fuel) (hle : fuel ≤ fuel2) :
    runLayers g pp iset oset ord fuel 0 st =
      runLayers g pp iset oset ord fuel2 0 st := by
  cases fuel with
  | zero => omega
  | succ fuel =>
    cases fuel2 with
    | zero => omega
    | succ k =>
      unfold runLayers
      rw [if_pos rfl, if_pos rfl]
      set st1 := (ord 0 st.ocset).foldl (processVertex g pp 0) { st with cset := ∅ }
        with hst1
      have hocs : st1.ocset = st.ocset :=
        (sweep_frontier g pp 0 (ord 0 st.ocset) { st with cset := ∅ }).2.2.2
      have hole : (book iset (seed iset oset st1)).ocset.card ≤ st.ocset.card := by
        have : (book iset (seed iset oset st1)).ocset = st1.ocset \ st1.cset := rfl
        rw [this, hocs]
        exact Finset.card_le_card (Finset.sdiff_subset)
      exact runLayers_stable_pos g pp iset oset ord hord fuel k 1 _ (by omega)
        (by omega) (by omega)

/-- The fuel `|V| + 2` given to the layer loop is adequate: the loop has
provably broken by then, so the state at loop exit is independent of any
further fuel. -/
theorem runLayers_fuel_adequate (g : Graph) (iset oset pdomv : Finset ℕ)
    (pp : ℕ → PPlane) (ord : ℕ → Finset ℕ → List ℕ) (hord : validOrd ord)
    (fuel2 : ℕ) (hle : g.length + 2 ≤ fuel2) :
    runLayers g pp iset oset ord (g.length + 2) 0 (initState g iset oset pdomv pp) =
      runLayers g pp iset oset ord fuel2 0 (initState g iset oset pdomv pp) := by
  apply runLayers_stable_zero g pp iset oset ord hord _ _ _ _ hle
  have h1 : (initState g iset oset pdomv pp).ocset.card ≤ g.length := by
    have h2 : (initState g iset oset pdomv pp).ocset ⊆ Finset.range g.length :=
      Finset.sdiff_subset
    calc (initState g iset oset pdomv pp).ocset.card
        ≤ (Finset.range g.length).card := Finset.card_le_card h2
      _ = g.length := Finset.card_range _
  omega

/-- An in-contract input on which the search succeeds but the unwrapped
domain check fails, so the call panics: the input vertex 0 measured in
the Pauli Z plane is accepted with `f(0) = \x7b0\x7d`, which is not a
subset of `V ∖ I`.  This is the second panic outcome that the amendment
of the two-outcome claim accounts for. -/
theorem find_domain_check_panic :
    find [{1}, {0}] {0} {1} [(0, 5)] = Except.error "check_domain failed" := by
  decide

end pflow
